import Mathlib

/-!
Verification development for `GitHubRepoMonitor.py`, a single-file GitHub
repository monitor.  The Python program is shallowly embedded: the mutable
`GitHubMonitor` object becomes an explicit `MonitorState` threaded through
pure functions, the network and SMTP collaborators become explicit
environment functions, and each pass of `check_updates` returns the new
state together with a trace of observable events (fetches, log lines,
notification attempts, in-memory marker stores, file persists).

The persisted state file is written with `json.dump(self.last_commits, f)`
and read with `json.load(f)`.  Both are modelled faithfully for the data
that ever reaches them (a dict mapping strings to strings): the encoder
follows CPython's `json.encoder.py_encode_basestring_ascii` with the
default options (`ensure_ascii=True`, separators `", "` and `": "`), and
the decoder follows `json.decoder.py_scanstring` and `JSONObject` in
strict mode, restricted to objects whose values are strings.  The one
deviation is that lone surrogate escapes, which CPython keeps as
unpaired surrogate code units, are rejected, because Lean's `Char` cannot
represent them; the encoder never produces them.
-/

namespace GitHubMonitor

/-! ## Python `dict` model

`self.last_commits` is a Python `dict` mapping a repository name
(`"owner/repo"`) to the last known commit sha.  Python dicts preserve
insertion order, and assigning to an existing key keeps its position, so a
dict is modelled as an association list together with the two operations
the program uses: `d.get(k)` and `d[k] = v`. -/

/-- Model of Python `d.get(key)`: the value at the first matching key. -/
def dictGet : List (String × String) → String → Option String
  | [], _ => none
  | (k, v) :: rest, key => if k = key then some v else dictGet rest key

/-- Model of Python `d[key] = val`: overwrite in place keeping the position
of an existing key, append a fresh key at the end. -/
def dictSet : List (String × String) → String → String → List (String × String)
  | [], key, val => [(key, val)]
  | (k, v) :: rest, key, val =>
    if k = key then (key, val) :: rest else (k, v) :: dictSet rest key val

/-- Model of Python `dict(pairs)`: insert the pairs left to right. -/
def pairsToDict (pairs : List (String × String)) : List (String × String) :=
  pairs.foldl (fun d kv => dictSet d kv.1 kv.2) []

/-! ## JSON serialisation (`json.dump` for a `Dict[str, str]`) -/

/-- Lowercase hexadecimal digit, as produced by CPython's `'\\u%04x' % n`. -/
def toHexDigit (n : Nat) : Char :=
  if n < 10 then Char.ofNat (48 + n) else Char.ofNat (87 + n)

/-- A `\\uXXXX` escape with four lowercase hex digits. -/
def uEscape4 (n : Nat) : List Char :=
  ['\\', 'u', toHexDigit (n / 4096 % 16), toHexDigit (n / 256 % 16),
    toHexDigit (n / 16 % 16), toHexDigit (n % 16)]

/-- CPython `json.encoder.py_encode_basestring_ascii`, per character:
backslash and double quote get two-character escapes, printable ASCII is
kept, the five classic control characters get short escapes, every other
character is `\\uXXXX`-escaped (with a surrogate pair above `0xFFFF`). -/
def escapeChar (c : Char) : List Char :=
  if c = '\\' then ['\\', '\\']
  else if c = '"' then ['\\', '"']
  else if 32 ≤ c.toNat ∧ c.toNat ≤ 126 then [c]
  else if c = '\x08' then ['\\', 'b']
  else if c = '\x09' then ['\\', 't']
  else if c = '\x0a' then ['\\', 'n']
  else if c = '\x0c' then ['\\', 'f']
  else if c = '\x0d' then ['\\', 'r']
  else if c.toNat < 65536 then uEscape4 c.toNat
  else uEscape4 (55296 + (c.toNat - 65536) / 1024) ++
    uEscape4 (56320 + (c.toNat - 65536) % 1024)

/-- A JSON string literal: quote, escaped characters, quote. -/
def encodeJsonString (s : String) : List Char :=
  '"' :: ((s.data.map escapeChar).flatten ++ ['"'])

/-- One `"key": "value"` member, with `json.dump`'s default key separator. -/
def encodeEntry (kv : String × String) : List Char :=
  encodeJsonString kv.1 ++ ':' :: ' ' :: encodeJsonString kv.2

/-- The members of the object, joined by `json.dump`'s default item
separator `", "`. -/
def encodeEntries : List (String × String) → List Char
  | [] => []
  | [kv] => encodeEntry kv
  | kv :: rest => encodeEntry kv ++ ',' :: ' ' :: encodeEntries rest

/-- `json.dump` of the `last_commits` dict: the full object text. -/
def encodeState (m : List (String × String)) : String :=
  String.mk ('\x7b' :: (encodeEntries m ++ ['\x7d']))

/-! ## JSON deserialisation (`json.load` for a `Dict[str, str]`) -/

/-- Value of one hexadecimal digit, upper or lower case. -/
def hexVal (c : Char) : Option Nat :=
  if 48 ≤ c.toNat ∧ c.toNat ≤ 57 then some (c.toNat - 48)
  else if 97 ≤ c.toNat ∧ c.toNat ≤ 102 then some (c.toNat - 87)
  else if 65 ≤ c.toNat ∧ c.toNat ≤ 70 then some (c.toNat - 55)
  else none

/-- JSON whitespace, as in `json.decoder.WHITESPACE`. -/
def isJsonWs (c : Char) : Bool :=
  c = ' ' || c = '\x09' || c = '\x0a' || c = '\x0d'

/-- Drop leading JSON whitespace. -/
def skipWs : List Char → List Char
  | [] => []
  | c :: rest => if isJsonWs c then skipWs rest else c :: rest

/-- The two-character escapes accepted by `py_scanstring` (`BACKSLASH`). -/
def escapeDecode (c : Char) : Option Char :=
  if c = '"' then some '"'
  else if c = '\\' then some '\\'
  else if c = '/' then some '/'
  else if c = 'b' then some '\x08'
  else if c = 'f' then some '\x0c'
  else if c = 'n' then some '\x0a'
  else if c = 'r' then some '\x0d'
  else if c = 't' then some '\x09'
  else none

/-- The value of four hexadecimal digit characters, most significant
first (`_decode_uXXXX`). -/
def hex4 (a1 a2 a3 a4 : Char) : Option Nat :=
  match hexVal a1, hexVal a2, hexVal a3, hexVal a4 with
  | some x1, some x2, some x3, some x4 => some (x1 * 4096 + x2 * 256 + x3 * 16 + x4)
  | _, _, _, _ => none

/-- High (leading) UTF-16 surrogate range `0xD800`-`0xDBFF`. -/
def isHighSurrogate (n : Nat) : Bool :=
  55296 ≤ n && n ≤ 56319

/-- Low (trailing) UTF-16 surrogate range `0xDC00`-`0xDFFF`. -/
def isLowSurrogate (n : Nat) : Bool :=
  56320 ≤ n && n ≤ 57343

/-- Combine a surrogate pair into the character it denotes. -/
def combineSurrogates (n n2 : Nat) : Char :=
  Char.ofNat (65536 + (n - 55296) * 1024 + (n2 - 56320))

/-- Decode the six characters following a high surrogate escape: they must
be a `\\uXXXX` escape whose value is a low surrogate. -/
def surrogatePair (n : Nat) (b1 b2 b3 b4 b5 b6 : Char) : Option Char :=
  if b1 = '\\' ∧ b2 = 'u' then
    match hex4 b3 b4 b5 b6 with
    | some n2 => if isLowSurrogate n2 then some (combineSurrogates n n2) else none
    | none => none
  else none

/-- Decode one escape sequence, entered just after the backslash: either
`uXXXX` (with surrogate-pair handling as in `py_scanstring`; a lone
surrogate is rejected, see the module comment) or one of the
two-character escapes.  Returns the decoded character and the remaining
input. -/
def decodeEscape : List Char → Option (Char × List Char)
  | [] => none
  | e :: rest =>
    if e = 'u' then
      match rest with
      | a1 :: a2 :: a3 :: a4 :: rest3 =>
        match hex4 a1 a2 a3 a4 with
        | none => none
        | some n =>
          if isHighSurrogate n then
            match rest3 with
            | b1 :: b2 :: b3 :: b4 :: b5 :: b6 :: rest4 =>
              match surrogatePair n b1 b2 b3 b4 b5 b6 with
              | some ch => some (ch, rest4)
              | none => none
            | _ => none
          else if isLowSurrogate n then none
          else some (Char.ofNat n, rest3)
      | _ => none
    else
      match escapeDecode e with
      | some c2 => some (c2, rest)
      | none => none

/-- CPython `json.decoder.py_scanstring`, starting just after the opening
quote: returns the decoded characters and the input after the closing
quote.  Strict mode: raw control characters are an error.  The `fuel`
argument only bounds the recursion; every step consumes at least one
input character, so the fuel chosen by `scanString` never runs out. -/
def scanStringFuel : Nat → List Char → Option (List Char × List Char)
  | 0, _ => none
  | fuel + 1, l =>
    match l with
    | [] => none
    | c :: rest =>
      if c = '"' then some ([], rest)
      else if c = '\\' then
        match decodeEscape rest with
        | some (c2, rest2) => (scanStringFuel fuel rest2).map fun p => (c2 :: p.1, p.2)
        | none => none
      else if c.toNat < 32 then none
      else (scanStringFuel fuel rest).map fun p => (c :: p.1, p.2)

/-- `py_scanstring` proper: run the scan loop with enough fuel. -/
def scanString (l : List Char) : Option (List Char × List Char) :=
  scanStringFuel (l.length + 1) l

/-- The member-list loop of `json.decoder.JSONObject`, entered at the
first character of the first key (which `JSONObject` has already checked
is a double quote) and restricted to string values.  Returns the members
in source order and the input after the closing brace.  The `fuel`
argument only bounds the recursion; every recursive call consumes at
least one input character, so `fuel = length of the input` never runs
out. -/
def parsePairsFuel : Nat → List Char → Option (List (String × String) × List Char)
  | 0, _ => none
  | fuel + 1, l =>
    match l with
    | '"' :: rest =>
      match scanString rest with
      | none => none
      | some (key, rest2) =>
        match skipWs rest2 with
        | ':' :: rest3 =>
          match skipWs rest3 with
          | '"' :: rest4 =>
            match scanString rest4 with
            | none => none
            | some (val, rest5) =>
              match skipWs rest5 with
              | ',' :: rest6 =>
                match parsePairsFuel fuel (skipWs rest6) with
                | none => none
                | some (pairs, rest7) =>
                  some ((String.mk key, String.mk val) :: pairs, rest7)
              | c :: rest6 =>
                if c = '\x7d' then some ([(String.mk key, String.mk val)], rest6)
                else none
              | [] => none
          | _ => none
        | _ => none
    | _ => none

/-- `json.load` of the state file, for a JSON document whose value is an
object with string values: skip whitespace, parse the object, and reject
trailing garbage (`json.decoder`'s "Extra data" check).  Duplicate keys
collapse through `dict(pairs)` as in CPython.  Returns `none` where
`json.load` raises. -/
def decodeState (s : String) : Option (List (String × String)) :=
  match skipWs s.data with
  | c :: rest =>
    if c = '\x7b' then
      match skipWs rest with
      | d :: rest2 =>
        if d = '\x7d' then
          if (skipWs rest2).isEmpty then some [] else none
        else
          match parsePairsFuel (d :: rest2).length (d :: rest2) with
          | some (pairs, rest3) =>
            if (skipWs rest3).isEmpty then some (pairsToDict pairs) else none
          | none => none
      | [] => none
    else none
  | [] => none

/-- `_save_state`: the file content produced by
`json.dump(self.last_commits, f)`. -/
def save_state (m : List (String × String)) : String :=
  encodeState m

/-- The state-file read in `__init__` (`json.load(f)`), applied to a file
content. -/
def load_state (s : String) : Option (List (String × String)) :=
  decodeState s

/-- `_save_state` opens the file with mode `'w'` and then streams
`json.dump` into it.  Opening with `'w'` truncates the file immediately,
so the on-disk content passes through the empty string before the full
serialisation is written: these are the states a concurrent reader can
observe, in order. -/
def save_state_file_states (m : List (String × String)) : List String :=
  ["", encodeState m]

/-! ## Data model of fetched commits

`_get_latest_commit` reads the GitHub commits endpoint.  A successful JSON
response is a list of commit objects; the program uses `sha`,
`commit.author.name`, `commit.author.date` and `commit.message`. -/

structure CommitAuthor where
  name : String
  date : String
deriving DecidableEq, Repr

structure CommitData where
  author : CommitAuthor
  message : String
deriving DecidableEq, Repr

structure Commit where
  sha : String
  commit : CommitData
deriving DecidableEq, Repr

/-- Outcome of the underlying `requests.get` call for one repository:
either a response with an HTTP status code and the decoded list of commits
(the list is only consulted when the status is 200), or a raised exception
(connection errors and the like) carrying its message. -/
inductive HttpResult where
  | response (status : Nat) (commits : List Commit)
  | raises (msg : String)
deriving DecidableEq, Repr

/-- Embedding of `_get_latest_commit`: on a 200 response return the first
commit if the list is non-empty, otherwise `None`; on any other status
(401/403 authorization failures, 404, rate limiting, …) return `None`; a
raised exception propagates to the caller (`Except.error`). -/
def get_latest_commit : HttpResult → Except String (Option Commit)
  | .raises msg => .error msg
  | .response status commits =>
    if status = 200 then .ok commits.head? else .ok none

/-! ## Notifier

`_send_email_notification` builds the message and attempts SMTP delivery
inside a `try`/`except` that catches every exception, so a delivery
failure never propagates into `check_updates`; it only changes which line
is printed. -/

/-- Outcome of the SMTP delivery attempt inside `_send_email_notification`. -/
inductive NotifyResult where
  | ok
  | deliveryError (msg : String)
deriving DecidableEq, Repr

/-- Observable events of one pass of `check_updates`, in program order:
the `_get_latest_commit` call, the two log lines, the notification
attempt (line 115), the in-memory marker store (line 118,
`self.last_commits[repo] = commit_sha`) and the state persist (line 119,
`self._save_state()`, recording the full mapping it wrote). -/
inductive Event where
  | fetchRepo (repo : String)
  | fetchFailedLog (repo : String)
  | notifyAttempt (repo sha : String) (result : NotifyResult)
  | storeMarker (repo sha : String)
  | persist (m : List (String × String))
  | errorLog (repo msg : String)
deriving DecidableEq, Repr

/-- The monitor's mutable state: the in-memory `last_commits` dict and the
contents of `last_commits.json` (`none` when the file does not exist). -/
structure MonitorState where
  last_commits : List (String × String)
  file : Option String
deriving DecidableEq, Repr

/-! ## The change detector

`check_updates` iterates over `self.repos` in order.  The whole body of
the loop is wrapped in `try`/`except Exception`, so a raised fetch
exception is caught and logged and the loop continues with the next
repository.  The remote side is an environment `http : String →
HttpResult` (what `requests.get` does for each repository this cycle) and
`smtp : String → String → NotifyResult` (the outcome of the SMTP delivery
attempt for a given repo and sha this cycle). -/

/-- One iteration of the `for repo in self.repos` loop of `check_updates`. -/
def checkRepo (http : String → HttpResult) (smtp : String → String → NotifyResult)
    (st : MonitorState) (repo : String) : MonitorState × List Event :=
  match get_latest_commit (http repo) with
  | .error msg => (st, [.fetchRepo repo, .errorLog repo msg])
  | .ok none => (st, [.fetchRepo repo, .fetchFailedLog repo])
  | .ok (some c) =>
    if dictGet st.last_commits repo = some c.sha then
      (st, [.fetchRepo repo])
    else
      let m' := dictSet st.last_commits repo c.sha
      ({ last_commits := m', file := some (encodeState m') },
        [.fetchRepo repo, .notifyAttempt repo c.sha (smtp repo c.sha),
          .storeMarker repo c.sha, .persist m'])

/-- Embedding of `check_updates`: fold the loop body over the configured
repository list, collecting the events of each iteration in order. -/
def check_updates (http : String → HttpResult) (smtp : String → String → NotifyResult)
    (repos : List String) (st : MonitorState) : MonitorState × List Event :=
  match repos with
  | [] => (st, [])
  | r :: rest =>
    let p := checkRepo http smtp st r
    let q := check_updates http smtp rest p.1
    (q.1, p.2 ++ q.2)

/-- The shas of the notification attempts for one repository, in order. -/
def notificationsFor (repo : String) (evs : List Event) : List String :=
  evs.filterMap fun e =>
    match e with
    | .notifyAttempt r sha _ => if r = repo then some sha else none
    | _ => none

/-- All notification attempts of a trace, in order. -/
def notifyEvents (evs : List Event) : List (String × String) :=
  evs.filterMap fun e =>
    match e with
    | .notifyAttempt r sha _ => some (r, sha)
    | _ => none

/-- The repositories for which `_get_latest_commit` was called, in order. -/
def fetchedRepos (evs : List Event) : List String :=
  evs.filterMap fun e =>
    match e with
    | .fetchRepo r => some r
    | _ => none

/-- A marker is justified if it was already in the mapping when the pass
began (`init`) or its notification has been attempted in this pass
(`att`). -/
def markerJustified (init att : List (String × String)) (r s : String) : Bool :=
  decide ((r, s) ∈ init ∨ (r, s) ∈ att)

/-- Trace checker for the notify-then-persist ordering: walking the events
in order while accumulating the notification attempts seen so far, every
in-memory marker store and every entry of every persisted mapping must be
justified. -/
def notifyBeforeStore (init : List (String × String)) :
    List (String × String) → List Event → Bool
  | _, [] => true
  | att, e :: rest =>
    match e with
    | .notifyAttempt r s _ => notifyBeforeStore init ((r, s) :: att) rest
    | .storeMarker r s => markerJustified init att r s && notifyBeforeStore init att rest
    | .persist m =>
      m.all (fun kv => markerJustified init att kv.1 kv.2) &&
        notifyBeforeStore init att rest
    | _ => notifyBeforeStore init att rest

/-! ## Concrete scenario used by the witnesses (spec §8's concrete case) -/

/-- The commit with marker `"sha1"`. -/
def exCommit : Commit :=
  { sha := "sha1",
    commit := { author := { name := "Ada", date := "2025-01-01" }, message := "fix" } }

/-- Remote behaviour: `"a/b"` answers 200 with `exCommit`; every other
repository raises a connection error. -/
def exHttp : String → HttpResult := fun r =>
  if r = "a/b" then .response 200 [exCommit] else .raises "connection error"

/-- SMTP behaviour where every delivery attempt fails. -/
def exSmtpErr : String → String → NotifyResult := fun _ _ =>
  .deliveryError "smtp down"

/-- Fresh monitor state: empty dict, no state file. -/
def exState0 : MonitorState := { last_commits := [], file := none }

/-- Monitor state holding a marker for a repository outside the list. -/
def exStateOther : MonitorState :=
  { last_commits := [("x/y", "m0")], file := none }

/-- Monitor state holding markers for a configured sibling repository
(`"c/d"`) and for a repository outside the list (`"x/y"`). -/
def exStateSibling : MonitorState :=
  { last_commits := [("c/d", "m1"), ("x/y", "m0")], file := none }

/-! ## Lemmas about the dict model -/

theorem dictGet_dictSet_self (l : List (String × String)) (k v : String) :
    dictGet (dictSet l k v) k = some v := by
  induction l with
  | nil => simp [dictSet, dictGet]
  | cons kv rest ih =>
    obtain ⟨k0, v0⟩ := kv
    by_cases h : k0 = k
    · subst h; simp [dictSet, dictGet]
    · simp [dictSet, dictGet, h, ih]

theorem dictGet_dictSet_ne (l : List (String × String)) (k v k' : String)
    (h : k' ≠ k) : dictGet (dictSet l k v) k' = dictGet l k' := by
  induction l with
  | nil => simp [dictSet, dictGet, Ne.symm h]
  | cons kv rest ih =>
    obtain ⟨k0, v0⟩ := kv
    by_cases h0 : k0 = k
    · subst h0
      simp [dictSet, dictGet, Ne.symm h]
    · simp [dictSet, dictGet, h0, ih]

theorem dictGet_dictSet_isSome (l : List (String × String)) (k v k' w : String)
    (h : dictGet l k' = some w) : ∃ w', dictGet (dictSet l k v) k' = some w' := by
  by_cases hk : k' = k
  · subst hk; exact ⟨v, dictGet_dictSet_self l k' v⟩
  · exact ⟨w, by rw [dictGet_dictSet_ne l k v k' hk]; exact h⟩

theorem mem_dictSet (l : List (String × String)) (k v : String) (kv : String × String) :
    kv ∈ dictSet l k v → kv = (k, v) ∨ kv ∈ l := by
  induction l with
  | nil =>
    intro h
    simpa [dictSet] using h
  | cons kv0 rest ih =>
    obtain ⟨k0, v0⟩ := kv0
    intro h
    by_cases h0 : k0 = k
    · subst h0
      simp only [dictSet, if_true, eq_self_iff_true, if_pos, List.mem_cons] at h
      simp only [List.mem_cons]
      tauto
    · simp only [dictSet, if_neg h0, List.mem_cons] at h
      simp only [List.mem_cons]
      tauto

/-! ## Case equations for one loop iteration -/

theorem checkRepo_error (http : String → HttpResult) (smtp : String → String → NotifyResult)
    (st : MonitorState) (repo msg : String)
    (h : get_latest_commit (http repo) = .error msg) :
    checkRepo http smtp st repo = (st, [.fetchRepo repo, .errorLog repo msg]) := by
  simp [checkRepo, h]

theorem checkRepo_notFound (http : String → HttpResult) (smtp : String → String → NotifyResult)
    (st : MonitorState) (repo : String)
    (h : get_latest_commit (http repo) = .ok none) :
    checkRepo http smtp st repo = (st, [.fetchRepo repo, .fetchFailedLog repo]) := by
  simp [checkRepo, h]

theorem checkRepo_same (http : String → HttpResult) (smtp : String → String → NotifyResult)
    (st : MonitorState) (repo : String) (c : Commit)
    (h : get_latest_commit (http repo) = .ok (some c))
    (he : dictGet st.last_commits repo = some c.sha) :
    checkRepo http smtp st repo = (st, [.fetchRepo repo]) := by
  simp [checkRepo, h, he]

theorem checkRepo_change (http : String → HttpResult) (smtp : String → String → NotifyResult)
    (st : MonitorState) (repo : String) (c : Commit)
    (h : get_latest_commit (http repo) = .ok (some c))
    (he : dictGet st.last_commits repo ≠ some c.sha) :
    checkRepo http smtp st repo =
      ({ last_commits := dictSet st.last_commits repo c.sha,
         file := some (encodeState (dictSet st.last_commits repo c.sha)) },
        [.fetchRepo repo, .notifyAttempt repo c.sha (smtp repo c.sha),
          .storeMarker repo c.sha, .persist (dictSet st.last_commits repo c.sha)]) := by
  simp [checkRepo, h, he]

/-! ## Trace bookkeeping -/

theorem notificationsFor_append (repo : String) (a b : List Event) :
    notificationsFor repo (a ++ b) = notificationsFor repo a ++ notificationsFor repo b := by
  simp [notificationsFor, List.filterMap_append]

theorem notifyEvents_append (a b : List Event) :
    notifyEvents (a ++ b) = notifyEvents a ++ notifyEvents b := by
  simp [notifyEvents, List.filterMap_append]

theorem fetchedRepos_append (a b : List Event) :
    fetchedRepos (a ++ b) = fetchedRepos a ++ fetchedRepos b := by
  simp [fetchedRepos, List.filterMap_append]

/-- Processing a different repository never touches this repository's
stored marker. -/
theorem checkRepo_frame (http : String → HttpResult) (smtp : String → String → NotifyResult)
    (st : MonitorState) (r repo : String) (hne : r ≠ repo) :
    dictGet (checkRepo http smtp st r).1.last_commits repo = dictGet st.last_commits repo := by
  cases hg : get_latest_commit (http r) with
  | error msg => rw [checkRepo_error http smtp st r msg hg]
  | ok oc =>
    cases oc with
    | none => rw [checkRepo_notFound http smtp st r hg]
    | some c =>
      by_cases he : dictGet st.last_commits r = some c.sha
      · rw [checkRepo_same http smtp st r c hg he]
      · rw [checkRepo_change http smtp st r c hg he]
        exact dictGet_dictSet_ne st.last_commits r c.sha repo (Ne.symm hne)

/-- Processing a different repository produces no notification attempt for
this repository. -/
theorem checkRepo_no_notify_ne (http : String → HttpResult)
    (smtp : String → String → NotifyResult) (st : MonitorState) (r repo : String)
    (hne : r ≠ repo) :
    notificationsFor repo (checkRepo http smtp st r).2 = [] := by
  cases hg : get_latest_commit (http r) with
  | error msg =>
    rw [checkRepo_error http smtp st r msg hg]
    simp [notificationsFor]
  | ok oc =>
    cases oc with
    | none =>
      rw [checkRepo_notFound http smtp st r hg]
      simp [notificationsFor]
    | some c =>
      by_cases he : dictGet st.last_commits r = some c.sha
      · rw [checkRepo_same http smtp st r c hg he]
        simp [notificationsFor]
      · rw [checkRepo_change http smtp st r c hg he]
        simp [notificationsFor, hne]

/-! ## Pass-level lemmas -/

/-- If the stored marker already equals the fetched sha, a pass never
notifies for that repository and leaves its marker in place. -/
theorem preserve_current (http : String → HttpResult) (smtp : String → String → NotifyResult)
    (repo : String) (c : Commit) (h : get_latest_commit (http repo) = .ok (some c)) :
    ∀ (repos : List String) (st : MonitorState),
      dictGet st.last_commits repo = some c.sha →
      dictGet (check_updates http smtp repos st).1.last_commits repo = some c.sha ∧
      notificationsFor repo (check_updates http smtp repos st).2 = [] := by
  intro repos
  induction repos with
  | nil =>
    intro st hcur
    simpa [check_updates, notificationsFor] using hcur
  | cons r rest ih =>
    intro st hcur
    simp only [check_updates]
    by_cases hr : r = repo
    · subst hr
      rw [checkRepo_same http smtp st r c h hcur]
      have hrec := ih st hcur
      constructor
      · exact hrec.1
      · rw [notificationsFor_append, hrec.2]
        simp [notificationsFor]
    · have hcur' : dictGet (checkRepo http smtp st r).1.last_commits repo = some c.sha := by
        rw [checkRepo_frame http smtp st r repo hr]; exact hcur
      have hrec := ih (checkRepo http smtp st r).1 hcur'
      constructor
      · exact hrec.1
      · rw [notificationsFor_append, checkRepo_no_notify_ne http smtp st r repo hr]
        simpa using hrec.2

/-- After a pass, every listed repository whose fetch succeeded stores
exactly the fetched sha. -/
theorem marker_after_pass (http : String → HttpResult) (smtp : String → String → NotifyResult)
    (repo : String) (c : Commit) (h : get_latest_commit (http repo) = .ok (some c)) :
    ∀ (repos : List String) (st : MonitorState), repo ∈ repos →
      dictGet (check_updates http smtp repos st).1.last_commits repo = some c.sha := by
  intro repos
  induction repos with
  | nil =>
    intro st hm
    cases hm
  | cons r rest ih =>
    intro st hm
    simp only [check_updates]
    by_cases hr : r = repo
    · subst hr
      by_cases he : dictGet st.last_commits r = some c.sha
      · rw [checkRepo_same http smtp st r c h he]
        exact (preserve_current http smtp r c h rest st he).1
      · rw [checkRepo_change http smtp st r c h he]
        exact (preserve_current http smtp r c h rest
          { last_commits := dictSet st.last_commits r c.sha,
            file := some (encodeState (dictSet st.last_commits r c.sha)) }
          (dictGet_dictSet_self st.last_commits r c.sha)).1
    · have hm' : repo ∈ rest := by
        rcases List.mem_cons.mp hm with hm0 | hm0
        · exact absurd hm0.symm hr
        · exact hm0
      exact ih (checkRepo http smtp st r).1 hm'

/-- A detected change yields exactly one notification attempt in the pass,
the marker is updated, and the updated mapping is persisted. -/
theorem detect_change (http : String → HttpResult) (smtp : String → String → NotifyResult)
    (repo : String) (c : Commit) (h : get_latest_commit (http repo) = .ok (some c)) :
    ∀ (repos : List String) (st : MonitorState), repo ∈ repos →
      dictGet st.last_commits repo ≠ some c.sha →
      notificationsFor repo (check_updates http smtp repos st).2 = [c.sha] ∧
      dictGet (check_updates http smtp repos st).1.last_commits repo = some c.sha ∧
      ∃ m, Event.persist m ∈ (check_updates http smtp repos st).2 ∧
        dictGet m repo = some c.sha := by
  intro repos
  induction repos with
  | nil =>
    intro st hm
    cases hm
  | cons r rest ih =>
    intro st hm hne
    simp only [check_updates]
    by_cases hr : r = repo
    · subst hr
      rw [checkRepo_change http smtp st r c h hne]
      have hrec := preserve_current http smtp r c h rest
        { last_commits := dictSet st.last_commits r c.sha,
          file := some (encodeState (dictSet st.last_commits r c.sha)) }
        (dictGet_dictSet_self st.last_commits r c.sha)
      refine ⟨?_, hrec.1, ?_⟩
      · rw [notificationsFor_append, hrec.2]
        simp [notificationsFor]
      · refine ⟨dictSet st.last_commits r c.sha, ?_, dictGet_dictSet_self _ _ _⟩
        simp
    · have hm' : repo ∈ rest := by
        rcases List.mem_cons.mp hm with hm0 | hm0
        · exact absurd hm0.symm hr
        · exact hm0
      have hne' : dictGet (checkRepo http smtp st r).1.last_commits repo ≠ some c.sha := by
        rw [checkRepo_frame http smtp st r repo hr]; exact hne
      have hrec := ih (checkRepo http smtp st r).1 hm' hne'
      refine ⟨?_, hrec.2.1, ?_⟩
      · rw [notificationsFor_append, checkRepo_no_notify_ne http smtp st r repo hr]
        simpa using hrec.1
      · obtain ⟨m, hmem, hget⟩ := hrec.2.2
        exact ⟨m, by simp [hmem], hget⟩

/-- A repository whose fetch yields `None` or raises keeps its stored
marker through the whole pass. -/
theorem skip_preserves (http : String → HttpResult) (smtp : String → String → NotifyResult)
    (repo : String)
    (h : get_latest_commit (http repo) = .ok none ∨
      ∃ msg, get_latest_commit (http repo) = .error msg) :
    ∀ (repos : List String) (st : MonitorState),
      dictGet (check_updates http smtp repos st).1.last_commits repo =
        dictGet st.last_commits repo := by
  intro repos
  induction repos with
  | nil =>
    intro st
    simp [check_updates]
  | cons r rest ih =>
    intro st
    simp only [check_updates]
    by_cases hr : r = repo
    · subst hr
      rcases h with h0 | ⟨msg, h0⟩
      · rw [checkRepo_notFound http smtp st r h0]
        exact ih st
      · rw [checkRepo_error http smtp st r msg h0]
        exact ih st
    · rw [ih (checkRepo http smtp st r).1]
      exact checkRepo_frame http smtp st r repo hr

/-- If every listed repository either fails to fetch or already stores the
fetched sha, the pass is a complete no-op: the state (mapping and file) is
unchanged and no notification attempt happens. -/
theorem pass_noop (http : String → HttpResult) (smtp : String → String → NotifyResult) :
    ∀ (repos : List String) (st : MonitorState),
      (∀ r ∈ repos, get_latest_commit (http r) = .ok none ∨
        (∃ msg, get_latest_commit (http r) = .error msg) ∨
        ∃ c, get_latest_commit (http r) = .ok (some c) ∧
          dictGet st.last_commits r = some c.sha) →
      (check_updates http smtp repos st).1 = st ∧
      notifyEvents (check_updates http smtp repos st).2 = [] := by
  intro repos
  induction repos with
  | nil =>
    intro st _
    simp [check_updates, notifyEvents]
  | cons r rest ih =>
    intro st hall
    simp only [check_updates]
    have hr := hall r (List.mem_cons_self r rest)
    have hrest : ∀ r' ∈ rest, get_latest_commit (http r') = .ok none ∨
        (∃ msg, get_latest_commit (http r') = .error msg) ∨
        ∃ c, get_latest_commit (http r') = .ok (some c) ∧
          dictGet st.last_commits r' = some c.sha :=
      fun r' hm => hall r' (List.mem_cons_of_mem r hm)
    rcases hr with h0 | ⟨msg, h0⟩ | ⟨c, h0, he⟩
    · rw [checkRepo_notFound http smtp st r h0]
      have hrec := ih st hrest
      exact ⟨hrec.1, by rw [notifyEvents_append, hrec.2]; simp [notifyEvents]⟩
    · rw [checkRepo_error http smtp st r msg h0]
      have hrec := ih st hrest
      exact ⟨hrec.1, by rw [notifyEvents_append, hrec.2]; simp [notifyEvents]⟩
    · rw [checkRepo_same http smtp st r c h0 he]
      have hrec := ih st hrest
      exact ⟨hrec.1, by rw [notifyEvents_append, hrec.2]; simp [notifyEvents]⟩

/-! ## Claims C1-C4 -/

/-- C1: for every repository whose fetched change record has a marker
different from the stored marker, if the notifier returns a delivery
error, the change detector still updates the in-memory mapping for that
repository to the new marker and persists it, and a subsequent pass in
which the fetch returns the same marker produces no further notification
for that repository. -/
theorem delivery_error_still_advances (http : String → HttpResult)
    (smtp : String → String → NotifyResult) (repos : List String) (st : MonitorState)
    (repo : String) (c : Commit) (err : String)
    (hmem : repo ∈ repos)
    (hfetch : get_latest_commit (http repo) = .ok (some c))
    (hne : dictGet st.last_commits repo ≠ some c.sha)
    (hdel : smtp repo c.sha = .deliveryError err) :
    dictGet (check_updates http smtp repos st).1.last_commits repo = some c.sha ∧
    (∃ m, Event.persist m ∈ (check_updates http smtp repos st).2 ∧
      dictGet m repo = some c.sha) ∧
    notificationsFor repo
      (check_updates http smtp repos (check_updates http smtp repos st).1).2 = [] := by
  have hd := detect_change http smtp repo c hfetch repos st hmem hne
  exact ⟨hd.2.1, hd.2.2,
    (preserve_current http smtp repo c hfetch repos _ hd.2.1).2⟩

/-- Witness for C1, on the concrete scenario: repo `"a/b"`, empty prior
state, fetched marker `"sha1"`, failing SMTP delivery. -/
theorem delivery_error_still_advances_witness :
    dictGet (check_updates exHttp exSmtpErr ["a/b"] exState0).1.last_commits "a/b" =
      some exCommit.sha ∧
    (∃ m, Event.persist m ∈ (check_updates exHttp exSmtpErr ["a/b"] exState0).2 ∧
      dictGet m "a/b" = some exCommit.sha) ∧
    notificationsFor "a/b"
      (check_updates exHttp exSmtpErr ["a/b"]
        (check_updates exHttp exSmtpErr ["a/b"] exState0).1).2 = [] :=
  delivery_error_still_advances exHttp exSmtpErr ["a/b"] exState0 "a/b" exCommit
    "smtp down" (by decide) (by rfl) (by decide) (by rfl)

/-- C2: for every repository with no stored marker whose fetch returns a
change record, one pass emits exactly one notification for that
repository, and afterwards the stored marker equals the fetched record's
marker. -/
theorem first_observation_notifies (http : String → HttpResult)
    (smtp : String → String → NotifyResult) (repos : List String) (st : MonitorState)
    (repo : String) (c : Commit)
    (hmem : repo ∈ repos)
    (hnone : dictGet st.last_commits repo = none)
    (hfetch : get_latest_commit (http repo) = .ok (some c)) :
    notificationsFor repo (check_updates http smtp repos st).2 = [c.sha] ∧
    dictGet (check_updates http smtp repos st).1.last_commits repo = some c.sha := by
  have hne : dictGet st.last_commits repo ≠ some c.sha := by
    rw [hnone]; simp
  have hd := detect_change http smtp repo c hfetch repos st hmem hne
  exact ⟨hd.1, hd.2.1⟩

/-- Witness for C2, on the concrete scenario of spec §8. -/
theorem first_observation_notifies_witness :
    notificationsFor "a/b" (check_updates exHttp exSmtpErr ["a/b"] exState0).2 =
      [exCommit.sha] ∧
    dictGet (check_updates exHttp exSmtpErr ["a/b"] exState0).1.last_commits "a/b" =
      some exCommit.sha :=
  first_observation_notifies exHttp exSmtpErr ["a/b"] exState0 "a/b" exCommit
    (by decide) (by decide) (by rfl)

/-- C3: a repository whose fetch returns NotFound (`None`) or a transient
error (a raised exception) suffers no state mutation in the pass: its
stored marker, including its absence, is identical before and after. -/
theorem skip_on_fetch_failure (http : String → HttpResult)
    (smtp : String → String → NotifyResult) (repos : List String) (st : MonitorState)
    (repo : String)
    (h : get_latest_commit (http repo) = .ok none ∨
      ∃ msg, get_latest_commit (http repo) = .error msg) :
    dictGet (check_updates http smtp repos st).1.last_commits repo =
      dictGet st.last_commits repo :=
  skip_preserves http smtp repo h repos st

/-- Witness for C3: repository `"c/d"` raises a connection error while
holding stored marker `"m0"`; the marker survives the pass. -/
theorem skip_on_fetch_failure_witness :
    dictGet (check_updates exHttp exSmtpErr ["a/b", "c/d"]
      { last_commits := [("c/d", "m0")], file := none }).1.last_commits "c/d" =
    dictGet [("c/d", "m0")] "c/d" :=
  skip_on_fetch_failure exHttp exSmtpErr ["a/b", "c/d"]
    { last_commits := [("c/d", "m0")], file := none } "c/d"
    (Or.inr ⟨"connection error", by rfl⟩)

/-- C4: running a full pass twice against the same fetch results produces
zero notifications during the second pass, and the state (mapping and
file) after the second pass equals the state after the first. -/
theorem pass_idempotent (http : String → HttpResult)
    (smtp : String → String → NotifyResult) (repos : List String) (st : MonitorState) :
    (check_updates http smtp repos (check_updates http smtp repos st).1).1 =
      (check_updates http smtp repos st).1 ∧
    notifyEvents (check_updates http smtp repos (check_updates http smtp repos st).1).2 =
      [] := by
  apply pass_noop
  intro r hm
  cases hg : get_latest_commit (http r) with
  | error msg => exact Or.inr (Or.inl ⟨msg, rfl⟩)
  | ok oc =>
    cases oc with
    | none => exact Or.inl rfl
    | some c =>
      exact Or.inr (Or.inr ⟨c, rfl, marker_after_pass http smtp r c hg repos st hm⟩)

/-! ## Claim C5: notify-then-persist ordering -/

theorem markerJustified_mono (init att : List (String × String)) (r s r' s' : String)
    (h : markerJustified init att r s = true) :
    markerJustified init ((r', s') :: att) r s = true := by
  simp only [markerJustified, decide_eq_true_eq, List.mem_cons] at h ⊢
  tauto

/-- Inductive core for C5: if every current entry is justified, the whole
remaining pass passes the trace checker. -/
theorem notifyBeforeStore_pass (http : String → HttpResult)
    (smtp : String → String → NotifyResult) (init : List (String × String)) :
    ∀ (repos : List String) (att : List (String × String)) (st : MonitorState),
      (∀ kv ∈ st.last_commits, markerJustified init att kv.1 kv.2 = true) →
      notifyBeforeStore init att (check_updates http smtp repos st).2 = true := by
  intro repos
  induction repos with
  | nil =>
    intro att st _
    simp [check_updates, notifyBeforeStore]
  | cons r rest ih =>
    intro att st hinv
    simp only [check_updates]
    cases hg : get_latest_commit (http r) with
    | error msg =>
      rw [checkRepo_error http smtp st r msg hg]
      simp only [List.cons_append, List.nil_append, notifyBeforeStore]
      exact ih att st hinv
    | ok oc =>
      cases oc with
      | none =>
        rw [checkRepo_notFound http smtp st r hg]
        simp only [List.cons_append, List.nil_append, notifyBeforeStore]
        exact ih att st hinv
      | some c =>
        by_cases he : dictGet st.last_commits r = some c.sha
        · rw [checkRepo_same http smtp st r c hg he]
          simp only [List.cons_append, List.nil_append, notifyBeforeStore]
          exact ih att st hinv
        · rw [checkRepo_change http smtp st r c hg he]
          simp only [List.cons_append, List.nil_append, notifyBeforeStore]
          have hjust : markerJustified init ((r, c.sha) :: att) r c.sha = true := by
            simp [markerJustified]
          have hinv' : ∀ kv ∈ dictSet st.last_commits r c.sha,
              markerJustified init ((r, c.sha) :: att) kv.1 kv.2 = true := by
            intro kv hkv
            rcases mem_dictSet st.last_commits r c.sha kv hkv with hkv' | hkv'
            · subst hkv'; exact hjust
            · exact markerJustified_mono init att kv.1 kv.2 r c.sha (hinv kv hkv')
          rw [hjust]
          have hall : (dictSet st.last_commits r c.sha).all
              (fun kv => markerJustified init ((r, c.sha) :: att) kv.1 kv.2) = true := by
            rw [List.all_eq_true]
            exact hinv'
          rw [hall]
          simp only [Bool.true_and]
          exact ih ((r, c.sha) :: att) _ hinv'

/-- C5: a marker enters the state mapping, and every mapping that is
persisted, only after its notification has been attempted in this pass,
unless it was already stored when the pass began (notify-then-persist
ordering). -/
theorem notify_then_persist (http : String → HttpResult)
    (smtp : String → String → NotifyResult) (repos : List String) (st : MonitorState) :
    notifyBeforeStore st.last_commits [] (check_updates http smtp repos st).2 = true := by
  apply notifyBeforeStore_pass
  intro kv hkv
  simp [markerJustified, hkv]

/-! ## Claim C8: every repository is processed, in order, exceptions caught -/

/-- C8: the pass fetches every configured repository in list order, and a
fetch that raises is caught and logged (so the remaining repositories are
still fetched in the same pass, as the first conjunct states for an
arbitrary raising environment). -/
theorem pass_checks_every_repo (http : String → HttpResult)
    (smtp : String → String → NotifyResult) (repos : List String) (st : MonitorState) :
    fetchedRepos (check_updates http smtp repos st).2 = repos ∧
    ∀ repo msg, repo ∈ repos → get_latest_commit (http repo) = .error msg →
      Event.errorLog repo msg ∈ (check_updates http smtp repos st).2 := by
  induction repos generalizing st with
  | nil =>
    refine ⟨by simp [check_updates, fetchedRepos], ?_⟩
    intro repo msg hm
    cases hm
  | cons r rest ih =>
    simp only [check_updates]
    have hrec := ih (checkRepo http smtp st r).1
    have hfr : fetchedRepos (checkRepo http smtp st r).2 = [r] := by
      cases hg : get_latest_commit (http r) with
      | error msg =>
        rw [checkRepo_error http smtp st r msg hg]; simp [fetchedRepos]
      | ok oc =>
        cases oc with
        | none => rw [checkRepo_notFound http smtp st r hg]; simp [fetchedRepos]
        | some c =>
          by_cases he : dictGet st.last_commits r = some c.sha
          · rw [checkRepo_same http smtp st r c hg he]; simp [fetchedRepos]
          · rw [checkRepo_change http smtp st r c hg he]; simp [fetchedRepos]
    constructor
    · rw [fetchedRepos_append, hfr, hrec.1]
      simp
    · intro repo msg hm hferr
      rcases List.mem_cons.mp hm with hm0 | hm0
      · subst hm0
        rw [checkRepo_error http smtp st repo msg hferr]
        simp
      · simp only [List.mem_append]
        exact Or.inr (hrec.2 repo msg hm0 hferr)

/-- Witness for C8: the first repository raises, yet both repositories are
fetched in order and the exception is logged. -/
theorem pass_checks_every_repo_witness :
    fetchedRepos (check_updates exHttp exSmtpErr ["c/d", "a/b"] exState0).2 =
      ["c/d", "a/b"] ∧
    Event.errorLog "c/d" "connection error" ∈
      (check_updates exHttp exSmtpErr ["c/d", "a/b"] exState0).2 :=
  ⟨(pass_checks_every_repo exHttp exSmtpErr ["c/d", "a/b"] exState0).1,
    (pass_checks_every_repo exHttp exSmtpErr ["c/d", "a/b"] exState0).2
      "c/d" "connection error" (by decide) (by rfl)⟩

/-! ## Claim C10: frame property of a pass -/

/-- Pass-level frame facts: a pass never removes a key (in memory and in
every persisted mapping), and entries of repositories outside the
configured list are carried through the whole pass unchanged. -/
theorem pass_preserves_entries (http : String → HttpResult)
    (smtp : String → String → NotifyResult) (repos : List String) (st : MonitorState) :
    (∀ k, k ∉ repos →
      dictGet (check_updates http smtp repos st).1.last_commits k =
        dictGet st.last_commits k) ∧
    (∀ k v, dictGet st.last_commits k = some v →
      ∃ v', dictGet (check_updates http smtp repos st).1.last_commits k = some v') ∧
    (∀ m, Event.persist m ∈ (check_updates http smtp repos st).2 →
      (∀ k, k ∉ repos → dictGet m k = dictGet st.last_commits k) ∧
      (∀ k v, dictGet st.last_commits k = some v → ∃ v', dictGet m k = some v')) := by
  induction repos generalizing st with
  | nil =>
    refine ⟨fun k _ => by simp [check_updates], fun k v hv => ⟨v, by simpa [check_updates]⟩, ?_⟩
    intro m hmem
    simp [check_updates] at hmem
  | cons r rest ih =>
    simp only [check_updates]
    have hnomem : ∀ k, k ∉ r :: rest → k ≠ r ∧ k ∉ rest := by
      intro k hk
      constructor
      · intro hkr; exact hk (hkr ▸ List.mem_cons_self r rest)
      · intro hkr; exact hk (List.mem_cons_of_mem r hkr)
    cases hg : get_latest_commit (http r) with
    | error msg =>
      rw [checkRepo_error http smtp st r msg hg]
      have hrec := ih st
      refine ⟨fun k hk => hrec.1 k (hnomem k hk).2, hrec.2.1, ?_⟩
      intro m hmem
      simp only [List.cons_append, List.nil_append, List.mem_cons] at hmem
      rcases hmem with h0 | h0 | h0
      · cases h0
      · cases h0
      · have := hrec.2.2 m h0
        exact ⟨fun k hk => (this.1 k (hnomem k hk).2), this.2⟩
    | ok oc =>
      cases oc with
      | none =>
        rw [checkRepo_notFound http smtp st r hg]
        have hrec := ih st
        refine ⟨fun k hk => hrec.1 k (hnomem k hk).2, hrec.2.1, ?_⟩
        intro m hmem
        simp only [List.cons_append, List.nil_append, List.mem_cons] at hmem
        rcases hmem with h0 | h0 | h0
        · cases h0
        · cases h0
        · have := hrec.2.2 m h0
          exact ⟨fun k hk => (this.1 k (hnomem k hk).2), this.2⟩
      | some c =>
        by_cases he : dictGet st.last_commits r = some c.sha
        · rw [checkRepo_same http smtp st r c hg he]
          have hrec := ih st
          refine ⟨fun k hk => hrec.1 k (hnomem k hk).2, hrec.2.1, ?_⟩
          intro m hmem
          simp only [List.cons_append, List.nil_append, List.mem_cons] at hmem
          rcases hmem with h0 | h0
          · cases h0
          · have := hrec.2.2 m h0
            exact ⟨fun k hk => (this.1 k (hnomem k hk).2), this.2⟩
        · rw [checkRepo_change http smtp st r c hg he]
          have hrec := ih
            { last_commits := dictSet st.last_commits r c.sha,
              file := some (encodeState (dictSet st.last_commits r c.sha)) }
          have hget1 : ∀ k, k ≠ r →
              dictGet (dictSet st.last_commits r c.sha) k = dictGet st.last_commits k :=
            fun k hk => dictGet_dictSet_ne st.last_commits r c.sha k hk
          refine ⟨?_, ?_, ?_⟩
          · intro k hk
            rw [hrec.1 k (hnomem k hk).2]
            exact hget1 k (hnomem k hk).1
          · intro k v hv
            obtain ⟨v', hv'⟩ := dictGet_dictSet_isSome st.last_commits r c.sha k v hv
            exact hrec.2.1 k v' hv'
          · intro m hmem
            simp only [List.cons_append, List.nil_append, List.mem_cons] at hmem
            rcases hmem with h0 | h0 | h0 | h0 | h0
            · cases h0
            · cases h0
            · cases h0
            · cases h0 with
              | refl =>
                refine ⟨fun k hk => hget1 k (hnomem k hk).1, ?_⟩
                intro k v hv
                exact dictGet_dictSet_isSome st.last_commits r c.sha k v hv
            · have hr2 := hrec.2.2 m h0
              refine ⟨?_, ?_⟩
              · intro k hk
                rw [hr2.1 k (hnomem k hk).2]
                exact hget1 k (hnomem k hk).1
              · intro k v hv
                obtain ⟨v', hv'⟩ := dictGet_dictSet_isSome st.last_commits r c.sha k v hv
                exact hr2.2 k v' hv'

/-- Step-level frame fact for the mapping persisted while processing one
repository: a mapping persisted by the iteration for repository `r`
agrees with the state before that iteration on every key other than `r`,
and contains an entry for every key the state had. -/
theorem checkRepo_persist_frame (http : String → HttpResult)
    (smtp : String → String → NotifyResult) (st : MonitorState) (r : String)
    (m : List (String × String))
    (hm : Event.persist m ∈ (checkRepo http smtp st r).2) :
    (∀ k, k ≠ r → dictGet m k = dictGet st.last_commits k) ∧
    (∀ k v, dictGet st.last_commits k = some v → ∃ v', dictGet m k = some v') := by
  cases hg : get_latest_commit (http r) with
  | error msg =>
    rw [checkRepo_error http smtp st r msg hg] at hm
    simp at hm
  | ok oc =>
    cases oc with
    | none =>
      rw [checkRepo_notFound http smtp st r hg] at hm
      simp at hm
    | some c =>
      by_cases he : dictGet st.last_commits r = some c.sha
      · rw [checkRepo_same http smtp st r c hg he] at hm
        simp at hm
      · rw [checkRepo_change http smtp st r c hg he] at hm
        simp only [List.mem_cons, List.not_mem_nil, or_false] at hm
        rcases hm with h0 | h0 | h0 | h0
        · cases h0
        · cases h0
        · cases h0
        · cases h0 with
          | refl =>
            refine ⟨fun k hk => dictGet_dictSet_ne st.last_commits r c.sha k hk, ?_⟩
            intro k v hv
            exact dictGet_dictSet_isSome st.last_commits r c.sha k v hv

/-- C10: a pass never removes a key from the state mapping (in memory and
in every mapping persisted during the pass), and when processing one
repository the only entry it may change is that repository's own entry:
every entry for any other repository identifier — a configured sibling as
much as an identifier no longer in the configured list — is carried
through that iteration unchanged, both in memory and in the mapping it
persists; entries of unlisted identifiers are moreover unchanged across
the whole pass. -/
theorem only_processed_entry_changes (http : String → HttpResult)
    (smtp : String → String → NotifyResult) (repos : List String) (st : MonitorState) :
    (∀ (st' : MonitorState) (r k : String), k ≠ r →
      dictGet (checkRepo http smtp st' r).1.last_commits k = dictGet st'.last_commits k) ∧
    (∀ (st' : MonitorState) (r : String) (m : List (String × String)),
      Event.persist m ∈ (checkRepo http smtp st' r).2 →
      (∀ k, k ≠ r → dictGet m k = dictGet st'.last_commits k) ∧
      (∀ k v, dictGet st'.last_commits k = some v → ∃ v', dictGet m k = some v')) ∧
    (∀ k v, dictGet st.last_commits k = some v →
      ∃ v', dictGet (check_updates http smtp repos st).1.last_commits k = some v') ∧
    (∀ m, Event.persist m ∈ (check_updates http smtp repos st).2 →
      ∀ k v, dictGet st.last_commits k = some v → ∃ v', dictGet m k = some v') ∧
    (∀ k, k ∉ repos →
      dictGet (check_updates http smtp repos st).1.last_commits k =
        dictGet st.last_commits k ∧
      ∀ m, Event.persist m ∈ (check_updates http smtp repos st).2 →
        dictGet m k = dictGet st.last_commits k) := by
  have hpass := pass_preserves_entries http smtp repos st
  refine ⟨fun st' r k hk => checkRepo_frame http smtp st' r k (Ne.symm hk),
    fun st' r m hm => checkRepo_persist_frame http smtp st' r m hm,
    hpass.2.1,
    fun m hm k v hv => (hpass.2.2 m hm).2 k v hv,
    fun k hk => ⟨hpass.1 k hk, fun m hm => (hpass.2.2 m hm).1 k hk⟩⟩

/-- Witness for C10, processing `"a/b"` from a state that also stores a
marker for the configured sibling `"c/d"` and for the stale `"x/y"`: the
iteration for `"a/b"` leaves both other entries unchanged in memory and
in the mapping it persists, no key is lost, and the stale entry survives
the whole pass. -/
theorem only_processed_entry_changes_witness :
    dictGet (checkRepo exHttp exSmtpErr exStateSibling "a/b").1.last_commits "c/d" =
      dictGet exStateSibling.last_commits "c/d" ∧
    dictGet [("c/d", "m1"), ("x/y", "m0"), ("a/b", "sha1")] "c/d" =
      dictGet exStateSibling.last_commits "c/d" ∧
    (∃ v', dictGet [("c/d", "m1"), ("x/y", "m0"), ("a/b", "sha1")] "x/y" = some v') ∧
    (∃ v', dictGet
      (check_updates exHttp exSmtpErr ["a/b"] exStateSibling).1.last_commits "c/d" =
        some v') ∧
    dictGet (check_updates exHttp exSmtpErr ["a/b"] exStateSibling).1.last_commits "x/y" =
      dictGet exStateSibling.last_commits "x/y" :=
  ⟨(only_processed_entry_changes exHttp exSmtpErr ["a/b"] exStateSibling).1
      exStateSibling "a/b" "c/d" (by decide),
    ((only_processed_entry_changes exHttp exSmtpErr ["a/b"] exStateSibling).2.1
      exStateSibling "a/b" [("c/d", "m1"), ("x/y", "m0"), ("a/b", "sha1")]
      (by decide)).1 "c/d" (by decide),
    ((only_processed_entry_changes exHttp exSmtpErr ["a/b"] exStateSibling).2.1
      exStateSibling "a/b" [("c/d", "m1"), ("x/y", "m0"), ("a/b", "sha1")]
      (by decide)).2 "x/y" "m0" (by decide),
    (only_processed_entry_changes exHttp exSmtpErr ["a/b"] exStateSibling).2.2.1
      "c/d" "m1" (by decide),
    ((only_processed_entry_changes exHttp exSmtpErr ["a/b"] exStateSibling).2.2.2.2
      "x/y" (by decide)).1⟩

/-! ## Claim C7: distinguishability of fetch outcomes -/

/-- C7 counterexample: an authorization failure is an HTTP 401 response
(`requests.get` does not raise on error status codes), and
`_get_latest_commit` then returns the very same value (`None`) as for a
repository with no recorded changes (a 200 response with an empty commit
list).  The two non-success cases are therefore not distinguishable, and
the authorization failure does not yield a distinct error result carrying
a diagnostic message. -/
theorem fetch_auth_failure_not_distinct :
    get_latest_commit (HttpResult.response 401 []) = Except.ok none ∧
    get_latest_commit (HttpResult.response 200 []) = Except.ok none :=
  ⟨rfl, rfl⟩

/-- C7 (amended): the fetch has three distinguishable outcomes — a commit
record, `None`, or a raised exception carrying a diagnostic message — and
a repository with no recorded changes yields `None`; but only
transport-level exceptions yield the distinct error case: a non-200
response, which is how an authorization failure arrives, also yields
`None` and cannot be told apart from "no recorded changes". -/
theorem fetch_outcome_classification (status : Nat) (commits : List Commit)
    (msg : String) (c : Commit) (cs : List Commit) :
    get_latest_commit (HttpResult.raises msg) = Except.error msg ∧
    get_latest_commit (HttpResult.response 200 []) = Except.ok none ∧
    get_latest_commit (HttpResult.response 200 (c :: cs)) = Except.ok (some c) ∧
    (status ≠ 200 →
      get_latest_commit (HttpResult.response status commits) = Except.ok none) ∧
    (Except.error msg ≠ (Except.ok none : Except String (Option Commit))) := by
  refine ⟨rfl, rfl, rfl, ?_, by simp⟩
  intro h
  simp [get_latest_commit, h]

/-- Witness for the amended C7, at status 401 with a non-empty body. -/
theorem fetch_outcome_classification_witness :
    get_latest_commit (HttpResult.raises "connection error") =
      Except.error "connection error" ∧
    get_latest_commit (HttpResult.response 401 [exCommit]) = Except.ok none :=
  ⟨(fetch_outcome_classification 401 [exCommit] "connection error" exCommit []).1,
    (fetch_outcome_classification 401 [exCommit] "connection error" exCommit
      []).2.2.2.1 (by decide)⟩

/-! ## Claim C9: atomicity of the save -/

/-- C9 counterexample: `_save_state` opens `last_commits.json` with mode
`'w'`, which truncates in place before `json.dump` writes, so saving the
mapping `[("a/b", "sha1")]` drives the file through the observable
intermediate content `""`; that content is not the serialisation of the
mapping being saved and is rejected by `json.load`, so a concurrent
reader can observe a partially written file. -/
theorem save_not_atomic_counterexample :
    "" ∈ save_state_file_states [("a/b", "sha1")] ∧
    decodeState "" = none ∧
    "" ≠ save_state [("a/b", "sha1")] :=
  ⟨by simp [save_state_file_states], rfl, by decide⟩

/-- C9 (amended): the save rewrites the state file in place by truncating
and then writing, so for every mapping the file passes through an
intermediate (empty) content that a concurrent reader can observe, that
`json.load` rejects, and that differs from the full serialisation;
atomicity with respect to a concurrent reader is not provided. -/
theorem save_truncates_then_writes (m : List (String × String)) :
    "" ∈ save_state_file_states m ∧
    decodeState "" = none ∧
    "" ≠ save_state m := by
  refine ⟨by simp [save_state_file_states], rfl, ?_⟩
  intro h
  have h2 : ([] : List Char) = '\x7b' :: (encodeEntries m ++ ['\x7d']) :=
    congrArg String.data h
  exact List.cons_ne_nil _ _ h2.symm

/-! ## Round-trip of the JSON state serialisation (claim C6) -/

theorem char_toNat_cases (c : Char) :
    c.toNat < 55296 ∨ (57343 < c.toNat ∧ c.toNat < 1114112) := by
  have h : c.val.toNat.isValidChar := c.valid
  unfold Nat.isValidChar at h
  have h2 : c.toNat = c.val.toNat := rfl
  omega

theorem hexVal_toHexDigit (k : Nat) (h : k < 16) : hexVal (toHexDigit k) = some k := by
  interval_cases k <;> decide

theorem hex4_digits (n : Nat) (h : n < 65536) :
    hex4 (toHexDigit (n / 4096 % 16)) (toHexDigit (n / 256 % 16))
      (toHexDigit (n / 16 % 16)) (toHexDigit (n % 16)) = some n := by
  have h1 := hexVal_toHexDigit (n / 4096 % 16) (Nat.mod_lt _ (by omega))
  have h2 := hexVal_toHexDigit (n / 256 % 16) (Nat.mod_lt _ (by omega))
  have h3 := hexVal_toHexDigit (n / 16 % 16) (Nat.mod_lt _ (by omega))
  have h4 := hexVal_toHexDigit (n % 16) (Nat.mod_lt _ (by omega))
  simp only [hex4, h1, h2, h3, h4]
  congr 1
  omega

theorem decodeEscape_u (a1 a2 a3 a4 : Char) (n : Nat) (tail : List Char)
    (hx : hex4 a1 a2 a3 a4 = some n) (hhi : isHighSurrogate n = false)
    (hlo : isLowSurrogate n = false) :
    decodeEscape ('u' :: a1 :: a2 :: a3 :: a4 :: tail) = some (Char.ofNat n, tail) := by
  simp [decodeEscape, hx, hhi, hlo]

theorem decodeEscape_u2 (a1 a2 a3 a4 b3 b4 b5 b6 : Char) (n n2 : Nat) (tail : List Char)
    (hx : hex4 a1 a2 a3 a4 = some n) (hhi : isHighSurrogate n = true)
    (hx2 : hex4 b3 b4 b5 b6 = some n2) (hlo : isLowSurrogate n2 = true) :
    decodeEscape ('u' :: a1 :: a2 :: a3 :: a4 :: '\\' :: 'u' :: b3 :: b4 :: b5 :: b6 :: tail) =
      some (combineSurrogates n n2, tail) := by
  simp [decodeEscape, hx, hhi, surrogatePair, hx2, hlo]

theorem scanStringFuel_quote (f : Nat) (tail : List Char) :
    scanStringFuel (f + 1) ('"' :: tail) = some ([], tail) := by
  simp [scanStringFuel]

theorem scanStringFuel_plain (f : Nat) (c : Char) (tail : List Char)
    (h1 : c ≠ '"') (h2 : c ≠ '\\') (h3 : ¬ c.toNat < 32) :
    scanStringFuel (f + 1) (c :: tail) =
      (scanStringFuel f tail).map fun p => (c :: p.1, p.2) := by
  simp [scanStringFuel, h1, h2, h3]

theorem scanStringFuel_escape (f : Nat) (rest rest2 : List Char) (c2 : Char)
    (hd : decodeEscape rest = some (c2, rest2)) :
    scanStringFuel (f + 1) ('\\' :: rest) =
      (scanStringFuel f rest2).map fun p => (c2 :: p.1, p.2) := by
  simp [scanStringFuel, hd]

/-- Scanning the escape of one character consumes exactly that character. -/
theorem scanStringFuel_escapeChar (c : Char) (f : Nat) (tail : List Char) :
    scanStringFuel (f + 1) (escapeChar c ++ tail) =
      (scanStringFuel f tail).map fun p => (c :: p.1, p.2) := by
  by_cases hb : c = '\\'
  · subst hb
    simp [escapeChar, scanStringFuel, decodeEscape, escapeDecode]
  by_cases hq : c = '"'
  · subst hq
    simp [escapeChar, scanStringFuel, decodeEscape, escapeDecode]
  by_cases hp : 32 ≤ c.toNat ∧ c.toNat ≤ 126
  · have he : escapeChar c = [c] := by
      simp [escapeChar, hb, hq, hp]
    rw [he, List.cons_append, List.nil_append]
    exact scanStringFuel_plain f c tail hq hb (by omega)
  by_cases h8 : c = '\x08'
  · subst h8
    simp [escapeChar, scanStringFuel, decodeEscape, escapeDecode]
  by_cases h9 : c = '\x09'
  · subst h9
    simp [escapeChar, scanStringFuel, decodeEscape, escapeDecode]
  by_cases ha : c = '\x0a'
  · subst ha
    simp [escapeChar, scanStringFuel, decodeEscape, escapeDecode]
  by_cases hc : c = '\x0c'
  · subst hc
    simp [escapeChar, scanStringFuel, decodeEscape, escapeDecode]
  by_cases hr : c = '\x0d'
  · subst hr
    simp [escapeChar, scanStringFuel, decodeEscape, escapeDecode]
  by_cases hbmp : c.toNat < 65536
  · have he : escapeChar c = uEscape4 c.toNat := by
      simp [escapeChar, hb, hq, hp, h8, h9, ha, hc, hr, hbmp]
    have hsur := char_toNat_cases c
    have hhi : isHighSurrogate c.toNat = false := by
      simp only [isHighSurrogate, Bool.and_eq_false_iff, decide_eq_false_iff_not]
      omega
    have hlo : isLowSurrogate c.toNat = false := by
      simp only [isLowSurrogate, Bool.and_eq_false_iff, decide_eq_false_iff_not]
      omega
    rw [he]
    simp only [uEscape4, List.cons_append, List.nil_append]
    rw [scanStringFuel_escape f _ tail (Char.ofNat c.toNat)
      (decodeEscape_u _ _ _ _ c.toNat tail (hex4_digits c.toNat hbmp) hhi hlo)]
    rw [Char.ofNat_toNat]
  · have he : escapeChar c = uEscape4 (55296 + (c.toNat - 65536) / 1024) ++
        uEscape4 (56320 + (c.toNat - 65536) % 1024) := by
      simp [escapeChar, hb, hq, hp, h8, h9, ha, hc, hr, hbmp]
    have hval := char_toNat_cases c
    have hmax : c.toNat < 1114112 := by omega
    have hdivlt : (c.toNat - 65536) / 1024 < 1024 := by omega
    have hmodlt : (c.toNat - 65536) % 1024 < 1024 := Nat.mod_lt _ (by omega)
    have hhi : isHighSurrogate (55296 + (c.toNat - 65536) / 1024) = true := by
      simp only [isHighSurrogate, Bool.and_eq_true, decide_eq_true_eq]
      omega
    have hlo : isLowSurrogate (56320 + (c.toNat - 65536) % 1024) = true := by
      simp only [isLowSurrogate, Bool.and_eq_true, decide_eq_true_eq]
      omega
    have hcomb : combineSurrogates (55296 + (c.toNat - 65536) / 1024)
        (56320 + (c.toNat - 65536) % 1024) = c := by
      unfold combineSurrogates
      have harith : 65536 + (55296 + (c.toNat - 65536) / 1024 - 55296) * 1024 +
          (56320 + (c.toNat - 65536) % 1024 - 56320) = c.toNat := by
        have hdm := Nat.div_add_mod (c.toNat - 65536) 1024
        omega
      rw [harith, Char.ofNat_toNat]
    rw [he]
    simp only [uEscape4, List.cons_append, List.append_assoc, List.nil_append]
    rw [scanStringFuel_escape f _ tail _
      (decodeEscape_u2 _ _ _ _ _ _ _ _ (55296 + (c.toNat - 65536) / 1024)
        (56320 + (c.toNat - 65536) % 1024) tail
        (hex4_digits _ (by omega)) hhi (hex4_digits _ (by omega)) hlo)]
    rw [hcomb]

theorem escapeChar_length_pos (c : Char) : 1 ≤ (escapeChar c).length := by
  unfold escapeChar
  repeat' split
  all_goals simp [uEscape4]

theorem length_le_flatten_escape (s : List Char) :
    s.length ≤ ((s.map escapeChar).flatten).length := by
  induction s with
  | nil => simp
  | cons c s' ih =>
    simp only [List.map_cons, List.flatten_cons, List.length_append, List.length_cons]
    have := escapeChar_length_pos c
    omega

theorem scanStringFuel_body (s : List Char) :
    ∀ (f : Nat) (tail : List Char), s.length < f →
      scanStringFuel f ((s.map escapeChar).flatten ++ '"' :: tail) = some (s, tail) := by
  induction s with
  | nil =>
    intro f tail hf
    obtain ⟨f', rfl⟩ : ∃ f', f = f' + 1 := ⟨f - 1, by omega⟩
    simp only [List.map_nil, List.flatten_nil, List.nil_append]
    exact scanStringFuel_quote f' tail
  | cons c s' ih =>
    intro f tail hf
    obtain ⟨f', rfl⟩ : ∃ f', f = f' + 1 := ⟨f - 1, by omega⟩
    simp only [List.map_cons, List.flatten_cons, List.append_assoc]
    rw [scanStringFuel_escapeChar c f' _]
    rw [ih f' tail (by simp only [List.length_cons] at hf; omega)]
    rfl

theorem scanString_encode (s : String) (tail : List Char) :
    scanString ((s.data.map escapeChar).flatten ++ '"' :: tail) = some (s.data, tail) := by
  unfold scanString
  apply scanStringFuel_body
  have := length_le_flatten_escape s.data
  simp only [List.length_append, List.length_cons]
  omega

theorem skipWs_not_ws (c : Char) (l : List Char) (h : isJsonWs c = false) :
    skipWs (c :: l) = c :: l := by
  simp [skipWs, h]

theorem encodeEntries_cons_shape (kv : String × String) (m' : List (String × String)) :
    ∃ l, encodeEntries (kv :: m') = '"' :: l := by
  cases m' with
  | nil => exact ⟨_, rfl⟩
  | cons kv2 m'' => exact ⟨_, rfl⟩

theorem length_le_encodeEntries (m : List (String × String)) :
    m.length ≤ (encodeEntries m).length := by
  induction m with
  | nil => simp [encodeEntries]
  | cons kv m' ih =>
    cases m' with
    | nil =>
      simp [encodeEntries, encodeEntry, encodeJsonString]
    | cons kv2 m'' =>
      simp only [encodeEntries, List.length_append, List.length_cons] at ih ⊢
      omega

theorem stringMk_data (s : String) : String.mk s.data = s := rfl

theorem parsePairsFuel_single (k v : String) (f : Nat) (tail : List Char) :
    parsePairsFuel (f + 1) (encodeEntry (k, v) ++ '\x7d' :: tail) = some ([(k, v)], tail) := by
  simp only [encodeEntry, encodeJsonString, List.cons_append, List.append_assoc,
    List.nil_append]
  simp only [parsePairsFuel]
  rw [scanString_encode]
  simp [skipWs, isJsonWs, scanString_encode, stringMk_data]

theorem parsePairsFuel_cons (k v : String) (kv2 : String × String)
    (m'' : List (String × String)) (f : Nat) (tail : List Char)
    (hrec : parsePairsFuel f (encodeEntries (kv2 :: m'') ++ '\x7d' :: tail) =
      some (kv2 :: m'', tail)) :
    parsePairsFuel (f + 1)
      (encodeEntry (k, v) ++ ',' :: ' ' :: (encodeEntries (kv2 :: m'') ++ '\x7d' :: tail)) =
      some ((k, v) :: kv2 :: m'', tail) := by
  obtain ⟨l, hl⟩ := encodeEntries_cons_shape kv2 m''
  rw [hl] at hrec ⊢
  simp only [List.cons_append] at hrec
  simp only [encodeEntry, encodeJsonString, List.cons_append, List.append_assoc,
    List.nil_append]
  simp only [parsePairsFuel]
  rw [scanString_encode]
  simp [skipWs, isJsonWs, scanString_encode, stringMk_data, hrec]

theorem parsePairsFuel_encode (m : List (String × String)) :
    ∀ (f : Nat) (tail : List Char), m ≠ [] → m.length ≤ f →
      parsePairsFuel f (encodeEntries m ++ '\x7d' :: tail) = some (m, tail) := by
  induction m with
  | nil =>
    intro f tail h _
    exact absurd rfl h
  | cons kv m' ih =>
    intro f tail _ hlen
    obtain ⟨f', rfl⟩ : ∃ f', f = f' + 1 := ⟨f - 1, by
      have hpos := hlen
      simp only [List.length_cons] at hpos
      omega⟩
    obtain ⟨k, v⟩ := kv
    cases m' with
    | nil =>
      rw [show encodeEntries [(k, v)] = encodeEntry (k, v) from rfl]
      exact parsePairsFuel_single k v f' tail
    | cons kv2 m'' =>
      have hrec := ih f' tail (by simp)
        (by simp only [List.length_cons] at hlen ⊢; omega)
      rw [show encodeEntries ((k, v) :: kv2 :: m'') =
        encodeEntry (k, v) ++ ',' :: ' ' :: encodeEntries (kv2 :: m'') from rfl]
      simp only [List.append_assoc, List.cons_append]
      exact parsePairsFuel_cons k v kv2 m'' f' tail hrec

theorem dictGet_append_of_none (l1 l2 : List (String × String)) (key : String)
    (h : dictGet l1 key = none) : dictGet (l1 ++ l2) key = dictGet l2 key := by
  induction l1 with
  | nil => simp
  | cons kv rest ih =>
    obtain ⟨k0, v0⟩ := kv
    simp only [dictGet] at h
    by_cases hk : k0 = key
    · rw [if_pos hk] at h; cases h
    · rw [if_neg hk] at h
      simp only [List.cons_append, dictGet, if_neg hk]
      exact ih h

theorem dictSet_append_of_none (l : List (String × String)) (k v : String)
    (h : dictGet l k = none) : dictSet l k v = l ++ [(k, v)] := by
  induction l with
  | nil => simp [dictSet]
  | cons kv rest ih =>
    obtain ⟨k0, v0⟩ := kv
    simp only [dictGet] at h
    by_cases hk : k0 = k
    · rw [if_pos hk] at h; cases h
    · rw [if_neg hk] at h
      simp [dictSet, hk, ih h]

theorem foldl_dictSet_append (m : List (String × String)) :
    ∀ acc, (m.map Prod.fst).Nodup → (∀ kv ∈ m, dictGet acc kv.1 = none) →
      m.foldl (fun d kv => dictSet d kv.1 kv.2) acc = acc ++ m := by
  induction m with
  | nil =>
    intro acc _ _
    simp
  | cons kv m' ih =>
    intro acc hnd hdis
    obtain ⟨k0, v0⟩ := kv
    simp only [List.foldl_cons]
    have hacc : dictGet acc k0 = none := hdis (k0, v0) (List.mem_cons_self _ _)
    rw [dictSet_append_of_none acc k0 v0 hacc]
    simp only [List.map_cons, List.nodup_cons] at hnd
    have hdis' : ∀ kv' ∈ m', dictGet (acc ++ [(k0, v0)]) kv'.1 = none := by
      intro kv' hm
      rw [dictGet_append_of_none _ _ _ (hdis kv' (List.mem_cons_of_mem _ hm))]
      have hne : k0 ≠ kv'.1 := by
        intro heq
        exact hnd.1 (heq ▸ List.mem_map_of_mem Prod.fst hm)
      simp [dictGet, hne]
    rw [ih (acc ++ [(k0, v0)]) hnd.2 hdis']
    simp

theorem pairsToDict_of_nodup (m : List (String × String))
    (h : (m.map Prod.fst).Nodup) : pairsToDict m = m := by
  unfold pairsToDict
  rw [foldl_dictSet_append m [] h (fun kv _ => rfl)]
  simp

theorem decodeState_encodeState (m : List (String × String))
    (h : (m.map Prod.fst).Nodup) : decodeState (encodeState m) = some m := by
  cases m with
  | nil => rfl
  | cons kv m' =>
    obtain ⟨l, hl⟩ := encodeEntries_cons_shape kv m'
    have hp : parsePairsFuel (('"' :: (l ++ ['\x7d'])).length) ('"' :: (l ++ ['\x7d'])) =
        some (kv :: m', []) := by
      have hb := parsePairsFuel_encode (kv :: m') (('"' :: (l ++ ['\x7d'])).length) []
        (by simp)
        (by
          have h1 := length_le_encodeEntries (kv :: m')
          rw [hl] at h1
          simp only [List.length_cons, List.length_append] at h1 ⊢
          omega)
      rw [hl] at hb
      simpa [List.cons_append, List.append_assoc] using hb
    unfold decodeState encodeState
    rw [show (String.mk ('\x7b' :: (encodeEntries (kv :: m') ++ ['\x7d']))).data =
      '\x7b' :: (encodeEntries (kv :: m') ++ ['\x7d']) from rfl]
    rw [hl]
    simp only [List.cons_append]
    simp only [List.length_cons, List.length_append, List.length_nil] at hp
    simp [skipWs, isJsonWs, hp, pairsToDict_of_nodup _ h]

/-- C6: loading the persisted state immediately after saving a mapping
returns that mapping: `load(save(m)) == m` for every mapping (a mapping's
keys are distinct by construction, hence the hypothesis), including the
empty one. -/
theorem load_save_roundtrip (m : List (String × String))
    (h : (m.map Prod.fst).Nodup) : load_state (save_state m) = some m :=
  decodeState_encodeState m h

/-- Witness for C6 on the concrete mapping of spec §8; the empty mapping
round-trips definitionally. -/
theorem load_save_roundtrip_witness :
    load_state (save_state [("a/b", "sha1")]) = some [("a/b", "sha1")] ∧
    load_state (save_state []) = some [] :=
  ⟨load_save_roundtrip [("a/b", "sha1")] (by decide),
    load_save_roundtrip [] (by decide)⟩

end GitHubMonitor
